import Mathlib

/-!
Verification of `gurobi_ml/torch/sequential.py` (embedding of a torch
`nn.Sequential` network into a Gurobi model).

The source file under verification contains the class `SequentialConstr`
with its validation scan (`__init__`), the embedding pass (`_mip_model`)
and the solution check (`get_error`).  The collaborators it calls
(`BaseNNConstr`, `add_dense_layer`, `add_activation_layer`,
`_has_solution`, and the torch forward semantics) are part of the
repository but not of the provided source; those are modelled from the
specification and marked as such in their doc comments.

Numeric values are modelled by `ℚ`; matrices by row-major `List (List ℚ)`;
solver variables by natural-number identifiers.
-/

deriving instance DecidableEq for Except

/-- Row-major matrix of rationals. -/
abbrev Mat : Type := List (List ℚ)

/-- Prepend the entries of `row` element-wise to the heads of `cols`
(used to build the transpose column by column). -/
def consColumn : List ℚ → List (List ℚ) → List (List ℚ)
  | [], _ => []
  | x :: xs, [] => [x] :: consColumn xs []
  | x :: xs, c :: cs => (x :: c) :: consColumn xs cs

/-- Transpose of a row-major matrix (the numpy `.T` used by the source’s
`param.detach().numpy().T`); exact on rectangular matrices. -/
def transposeMat : Mat → Mat
  | [] => []
  | row :: rest => consColumn row (transposeMat rest)

/-- Dot product of two vectors (missing entries count as absent terms). -/
def dotProd (xs ys : List ℚ) : ℚ := (List.zipWith (· * ·) xs ys).sum

/-- Matrix product: `(matMul x y)[i][j] = Σ_k x[i][k] * y[k][j]`. -/
def matMul (x y : Mat) : Mat :=
  let yt := transposeMat y
  x.map fun row => yt.map fun col => dotProd row col

/-- Add a bias vector to every row of a matrix (torch broadcasting). -/
def addBiasRows (x : Mat) (b : List ℚ) : Mat :=
  x.map fun row => List.zipWith (· + ·) row b

/-- Element-wise difference of two matrices. -/
def matSub (a b : Mat) : Mat :=
  List.zipWith (fun ra rb => List.zipWith (· - ·) ra rb) a b

/-- The function `max(0, v)`, written so that the kernel can evaluate it on rationals. -/
def reluQ (v : ℚ) : ℚ := if v ≤ 0 then 0 else v

/-- Element-wise ReLU of a matrix. -/
def reluMat (x : Mat) : Mat := x.map fun row => row.map reluQ

/-- A layer of the torch `Sequential` network as seen by the source:
`nn.Linear` (with its stored weight of shape `[out, in]` and an optional
bias parameter — `none` models `bias=False`), `nn.ReLU`, or any other
module kind, identified by its class name (`type(step).__name__`). -/
inductive Layer : Type
  | linear (weight : Mat) (bias : Option (List ℚ))
  | relu
  | other (kindName : String)
deriving DecidableEq, Repr

/-- A torch `nn.Sequential`: the ordered list of its layers. -/
abbrev Network : Type := List Layer

/-- A layer the source supports: `nn.Linear` or `nn.ReLU`. -/
def Layer.isSupported : Layer → Bool
  | .linear _ _ => true
  | .relu => true
  | .other _ => false

/-- Is this layer an `nn.Linear`? -/
def Layer.isLinear : Layer → Bool
  | .linear _ _ => true
  | _ => false

/-- Is this layer of an unsupported kind? -/
def Layer.isOther : Layer → Bool
  | .other _ => true
  | _ => false

/-- A supported layer whose parameters are complete: `nn.ReLU`, or
`nn.Linear` with its bias parameter present. -/
def Layer.supportedWithBias : Layer → Bool
  | .linear _ (some _) => true
  | .linear _ none => false
  | .relu => true
  | .other _ => false

/-- The errors surfaced by the modelled code: `NoModel` (unsupported layer
kind, carrying the kind name), `NoSolution`, a Python unbound-local
(`NameError`/`UnboundLocalError`) carrying the variable name, and torch’s
`NotImplementedError` for modules without forward semantics. -/
inductive PyError : Type
  | noModel (kindName : String)
  | noSolution
  | unboundLocal (varName : String)
  | notImplemented (kindName : String)
deriving DecidableEq, Repr

/-- Modelled from the spec: the network’s own forward evaluation of one
layer (torch semantics): `nn.Linear` computes `x · Wᵀ + b` (no bias term
when the bias parameter is absent), `nn.ReLU` computes `max(0, x)`
element-wise, and any other module has no forward semantics. -/
def Layer.forwardEval : Layer → Mat → Except PyError Mat
  | .linear w b, x =>
    let y := matMul x (transposeMat w)
    match b with
    | some bv => .ok (addBiasRows y bv)
    | none => .ok y
  | .relu, x => .ok (reluMat x)
  | .other k, _ => .error (.notImplemented k)

/-- Modelled from the spec: `predictor.forward` of the `Sequential`
network: the layers applied in order. -/
def Network.forwardEval : Network → Mat → Except PyError Mat
  | [], x => .ok x
  | l :: rest, x =>
    match l.forwardEval x with
    | .ok y => Network.forwardEval rest y
    | .error e => .error e

/-- The external solver model, reduced to what the claims observe: how
many variables and constraints it holds, and the solution values (indexed
by variable identifier) when it has been optimized and is feasible. -/
structure GpModel : Type where
  numVars : ℕ
  numConstrs : ℕ
  solution : Option (List ℚ)
deriving DecidableEq, Repr

/-- A 2-D array of solver decision variables: rows of variable
identifiers. -/
structure VarArray : Type where
  ids : List (List ℕ)
deriving DecidableEq, Repr

/-- Number of rows of a variable array. -/
def VarArray.rows (v : VarArray) : ℕ := v.ids.length

/-- Number of columns of a variable array. -/
def VarArray.cols (v : VarArray) : ℕ := (v.ids.headD []).length

/-- The solution values of a variable array (`.X` in gurobipy), read from
the model’s solution vector. -/
def VarArray.read (v : VarArray) (vals : List ℚ) : Mat :=
  v.ids.map fun row => row.map fun i => vals.getD i 0

/-- Modelled from the spec: create a fresh `rows × cols` array of new
decision variables on the model (variable identifiers are allocated
consecutively from the model’s current count). -/
def GpModel.addVarArray (gp : GpModel) (rows cols : ℕ) : GpModel × VarArray :=
  ({ gp with numVars := gp.numVars + rows * cols },
   ⟨(List.range rows).map fun r => (List.range cols).map fun c => gp.numVars + r * cols + c⟩)

/-- The activation kinds of the shared activation dictionary
(`self.actdict`) that the source uses: `"identity"` and `"relu"`. -/
inductive ActFunc : Type
  | identity
  | relu
deriving DecidableEq, Repr

/-- What a layer encoder received: a dense (affine) layer with the weight
matrix and bias vector handed to it plus its activation, or a pure
activation layer. -/
inductive LayerKind : Type
  | dense (weight : Mat) (bias : List ℚ) (act : ActFunc)
  | activation (act : ActFunc)
deriving DecidableEq, Repr

/-- One per-layer sub-embedding: what the encoder received (its kind and
parameters, its input array, and the output array argument it was handed,
`none` meaning auto-create) and the output array it produced. -/
structure LayerEmbedding : Type where
  kind : LayerKind
  input : VarArray
  outGiven : Option VarArray
  output : VarArray
deriving DecidableEq, Repr

/-- Modelled from the spec: the meaning of the constraints a layer encoder
adds — for a dense layer, `output = input · W + b` row by row (the
identity activation adds nothing); for a ReLU activation,
`output = max(0, input)` element-wise, exactly. -/
def LayerEmbedding.satisfied (le : LayerEmbedding) (vals : List ℚ) : Prop :=
  match le.kind with
  | .dense w b _ => le.output.read vals = addBiasRows (matMul (le.input.read vals) w) b
  | .activation .relu => le.output.read vals = reluMat (le.input.read vals)
  | .activation .identity => le.output.read vals = le.input.read vals

/-- The embedding object returned to the caller: the overall input and
output variable arrays and the ordered list of per-layer sub-embeddings. -/
structure Embedding : Type where
  input : VarArray
  output : VarArray
  layers : List LayerEmbedding
deriving DecidableEq, Repr

/-- Modelled from the spec: `add_dense_layer` — if no output array is
supplied, create a fresh one shaped `[input rows, bias length]`; add one
linear equality constraint per output entry expressing
`output = input · W + b`; record the layer embedding. -/
def add_dense_layer (gp : GpModel) (inp : VarArray) (w : Mat) (b : List ℚ)
    (act : ActFunc) (outOpt : Option VarArray) : GpModel × LayerEmbedding :=
  let kout := b.length
  let rows := inp.rows
  let created := match outOpt with
    | some o => (gp, o)
    | none => gp.addVarArray rows kout
  let gp2 := { created.1 with numConstrs := created.1.numConstrs + rows * kout }
  (gp2, ⟨.dense w b act, inp, outOpt, created.2⟩)

/-- Modelled from the spec: `add_activation_layer` — if no output array is
supplied, create a fresh one of the input’s shape; add the activation’s
constraints (one constraint group per element; the exact linear/indicator
formulation is delegated to the solver); record the layer embedding. -/
def add_activation_layer (gp : GpModel) (inp : VarArray) (act : ActFunc)
    (outOpt : Option VarArray) : GpModel × LayerEmbedding :=
  let rows := inp.rows
  let cols := inp.cols
  let created := match outOpt with
    | some o => (gp, o)
    | none => gp.addVarArray rows cols
  let gp2 := { created.1 with numConstrs := created.1.numConstrs + rows * cols }
  (gp2, ⟨.activation act, inp, outOpt, created.2⟩)

/-- The validation scan of `SequentialConstr.__init__`: walk the layers in
order; at the first layer that is neither `nn.ReLU` nor `nn.Linear`,
report its kind name (the `NoModel` exception’s payload). -/
def validate : Network → Option String
  | [] => none
  | .relu :: rest => validate rest
  | .linear _ _ :: rest => validate rest
  | .other k :: _ => some k

/-- One iteration of the `for i, step in enumerate(network)` loop of
`_mip_model`: `output` is `self._output` exactly when `i == numlayers - 1`
and `None` otherwise; an `nn.ReLU` step calls `add_activation_layer`; an
`nn.Linear` step binds `layer_weight` to the transposed weight parameter
and `layer_bias` to the bias parameter when present (otherwise the local
keeps its previous value — `none` meaning it was never bound, which raises
at use), then calls `add_dense_layer`; any other step matches no branch
and is skipped.  Returns the possibly produced layer embedding and the
value of the `layer_bias` local after the iteration. -/
def stepLayer (numlayers : ℕ) (callerOut : Option VarArray) (i : ℕ) (step : Layer)
    (gp : GpModel) (inp : VarArray) (biasLocal : Option (List ℚ)) :
    GpModel × Except PyError (Option LayerEmbedding × Option (List ℚ)) :=
  let output := if i = numlayers - 1 then callerOut else none
  match step with
  | .relu =>
    let r := add_activation_layer gp inp ActFunc.relu output
    (r.1, .ok (some r.2, biasLocal))
  | .linear w b =>
    let layer_weight := transposeMat w
    let layer_bias := match b with
      | some bv => some bv
      | none => biasLocal
    match layer_bias with
    | none => (gp, .error (.unboundLocal "layer_bias"))
    | some bv =>
      let r := add_dense_layer gp inp layer_weight bv ActFunc.identity output
      (r.1, .ok (some r.2, some bv))
  | .other _ => (gp, .ok (none, biasLocal))

/-- The loop of `_mip_model`: fold `stepLayer` over the remaining layers,
threading the model, the `_input` cursor (rebound to `layer.output` after
each encoded layer), the `layer_bias` local and the accumulated list of
layer embeddings; `i` is the index of the first remaining layer. -/
def runLayers (numlayers : ℕ) (callerOut : Option VarArray) :
    ℕ → List Layer → GpModel → VarArray → Option (List ℚ) → List LayerEmbedding →
    GpModel × Except PyError (VarArray × List LayerEmbedding)
  | _, [], gp, inp, _, acc => (gp, .ok (inp, acc))
  | i, step :: rest, gp, inp, biasLocal, acc =>
    match stepLayer numlayers callerOut i step gp inp biasLocal with
    | (gp', .error e) => (gp', .error e)
    | (gp', .ok (none, bc')) => runLayers numlayers callerOut (i + 1) rest gp' inp bc' acc
    | (gp', .ok (some le, bc')) =>
      runLayers numlayers callerOut (i + 1) rest gp' le.output bc' (acc ++ [le])

/-- The method `SequentialConstr._mip_model`: walk the network encoding each layer;
afterwards, when the caller supplied no output array, `self._output` is
set to `layer.output` — the output of the last encoded layer, an unbound
local when no layer was encoded. -/
def mipModel (gp : GpModel) (net : Network) (inputVars : VarArray)
    (callerOut : Option VarArray) : GpModel × Except PyError Embedding :=
  match runLayers net.length callerOut 0 net gp inputVars none [] with
  | (gp', .error e) => (gp', .error e)
  | (gp', .ok (_, layers)) =>
    match callerOut with
    | some out => (gp', .ok ⟨inputVars, out, layers⟩)
    | none =>
      match layers.getLast? with
      | some le => (gp', .ok ⟨inputVars, le.output, layers⟩)
      | none => (gp', .error (.unboundLocal "layer"))

/-- The constructor `SequentialConstr.__init__` (and `add_sequential_constr`): first the
validation scan over the predictor’s layers, raising `NoModel` with the
offending kind name before anything touches the solver model; then the
base-class constructor runs the embedding pass `_mip_model` (the
base-class plumbing, not in the provided source, is modelled from the
spec: it stores the caller’s input/output arrays and invokes
`_mip_model`).  Returns the solver model as left by the call together
with the result. -/
def SequentialConstr.init (gp : GpModel) (net : Network) (inputVars : VarArray)
    (outputVars : Option VarArray) : GpModel × Except PyError Embedding :=
  match validate net with
  | some k => (gp, .error (.noModel k))
  | none => mipModel gp net inputVars outputVars

/-- The state a constructed `SequentialConstr` object holds when
`get_error` is called: the solver model, the predictor network, and the
input/output variable arrays. -/
structure SequentialConstrState : Type where
  gp : GpModel
  predictor : Network
  input : VarArray
  output : VarArray
  layers : List LayerEmbedding
deriving DecidableEq, Repr

/-- The method `SequentialConstr.get_error`: when the model holds a solution
(`_has_solution`, modelled from the spec: optimized and feasible), read
the input variables’ solution values, recompute the network’s forward
pass on them, and return that recomputation minus the output variables’
solution values; otherwise raise `NoSolution`.  Returns the object state
after the call alongside the result. -/
def SequentialConstr.get_error (s : SequentialConstrState) :
    SequentialConstrState × Except PyError Mat :=
  match s.gp.solution with
  | some vals =>
    let t_in := s.input.read vals
    match s.predictor.forwardEval t_in with
    | .ok t_out => (s, .ok (matSub t_out (s.output.read vals)))
    | .error e => (s, .error e)
  | none => (s, .error .noSolution)

/-- The chaining of per-layer embeddings: starting from variable array
`x`, each embedding’s input is the current cursor and its output becomes
the next cursor, ending at `y`. -/
def chainFrom : VarArray → List LayerEmbedding → VarArray → Prop
  | x, [], y => x = y
  | x, le :: rest, y => le.input = x ∧ chainFrom le.output rest y

lemma chainFrom_getLast {x y : VarArray} :
    ∀ {res : List LayerEmbedding}, chainFrom x res y →
      ∀ le, res.getLast? = some le → le.output = y := by
  intro res
  induction res generalizing x with
  | nil => intro _ le h; cases h
  | cons a rest ih =>
    intro hc le hl
    rcases hc with ⟨_, hrest⟩
    cases rest with
    | nil =>
      cases hrest
      simp only [List.getLast?_singleton, Option.some.injEq] at hl
      rw [← hl]
    | cons b rest' =>
      exact ih hrest le (by simpa using hl)

lemma chainFrom_chain' {x y : VarArray} :
    ∀ {res : List LayerEmbedding}, chainFrom x res y →
      List.Chain' (fun a b => a.output = b.input) res := by
  intro res
  induction res generalizing x with
  | nil => intro _; simp
  | cons a rest ih =>
    intro hc
    rcases hc with ⟨_, hrest⟩
    rw [List.chain'_cons']
    refine ⟨?_, ih hrest⟩
    intro b hb
    cases rest with
    | nil => cases hb
    | cons c rest' =>
      simp only [List.head?_cons, Option.mem_def, Option.some.injEq] at hb
      rw [← hb]
      exact hrest.1.symm

lemma chainFrom_head {x y : VarArray} {res : List LayerEmbedding} (hc : chainFrom x res y) :
    ∀ le, res.head? = some le → le.input = x := by
  intro le hl
  cases res with
  | nil => cases hl
  | cons a rest =>
    simp only [List.head?_cons, Option.some.injEq] at hl
    rw [← hl]
    exact hc.1

/-- The scan `validate` succeeds exactly on networks of supported layers. -/
lemma validate_eq_none_iff {net : Network} :
    validate net = none ↔ ∀ l ∈ net, l.isSupported = true := by
  induction net with
  | nil => simp [validate]
  | cons l rest ih =>
    cases l with
    | linear w b => simpa [validate, Layer.isSupported] using ih
    | relu => simpa [validate, Layer.isSupported] using ih
    | other k => simp [validate, Layer.isSupported]

/-- The scan `validate` reports the kind name of the first unsupported layer. -/
lemma validate_eq_some {net : Network} {k : String} (h : validate net = some k) :
    ∃ pre post, net = pre ++ Layer.other k :: post ∧ ∀ l ∈ pre, l.isSupported = true := by
  induction net with
  | nil => cases h
  | cons l rest ih =>
    cases l with
    | linear w b =>
      rcases ih (by simpa [validate] using h) with ⟨pre, post, hnet, hpre⟩
      exact ⟨Layer.linear w b :: pre, post, by simp [hnet], by
        intro l hl
        rcases List.mem_cons.mp hl with h1 | h1
        · rw [h1]; rfl
        · exact hpre l h1⟩
    | relu =>
      rcases ih (by simpa [validate] using h) with ⟨pre, post, hnet, hpre⟩
      exact ⟨Layer.relu :: pre, post, by simp [hnet], by
        intro l hl
        rcases List.mem_cons.mp hl with h1 | h1
        · rw [h1]; rfl
        · exact hpre l h1⟩
    | other k' =>
      refine ⟨[], rest, ?_, by simp⟩
      simp only [validate, Option.some.injEq] at h
      simp [h]

lemma validate_isSome_of_unsupported {net : Network} (h : ∃ l ∈ net, l.isSupported = false) :
    ∃ k, validate net = some k := by
  induction net with
  | nil => simp at h
  | cons l rest ih =>
    cases l with
    | linear w b =>
      rcases h with ⟨l', hl', hsup⟩
      rcases List.mem_cons.mp hl' with h1 | h1
      · rw [h1] at hsup; cases hsup
      · simpa [validate] using ih ⟨l', h1, hsup⟩
    | relu =>
      rcases h with ⟨l', hl', hsup⟩
      rcases List.mem_cons.mp hl' with h1 | h1
      · rw [h1] at hsup; cases hsup
      · simpa [validate] using ih ⟨l', h1, hsup⟩
    | other k => exact ⟨k, rfl⟩

/-- The layer-embedding accumulator of the loop is append-only: running
with accumulator `acc` yields `acc ++` what running with an empty
accumulator yields, with the same model and error behaviour. -/
lemma runLayers_append (n : ℕ) (co : Option VarArray) :
    ∀ (L : List Layer) (i : ℕ) (gp : GpModel) (inp : VarArray) (bc : Option (List ℚ))
      (acc : List LayerEmbedding),
      runLayers n co i L gp inp bc acc =
        ((runLayers n co i L gp inp bc []).1,
         match (runLayers n co i L gp inp bc []).2 with
         | .error e => .error e
         | .ok (inp', res) => .ok (inp', acc ++ res)) := by
  intro L
  induction L with
  | nil => intro i gp inp bc acc; simp [runLayers]
  | cons s rest ih =>
    intro i gp inp bc acc
    rcases hs : stepLayer n co i s gp inp bc with ⟨gp1, r⟩
    cases r with
    | error e => simp [runLayers, hs]
    | ok p =>
      rcases p with ⟨opt, bc'⟩
      cases opt with
      | none =>
        simp only [runLayers, hs]
        exact ih (i + 1) gp1 inp bc' acc
      | some le =>
        simp only [runLayers, hs, List.nil_append]
        rw [ih (i + 1) gp1 le.output bc' (acc ++ [le]), ih (i + 1) gp1 le.output bc' [le]]
        rcases (runLayers n co (i + 1) rest gp1 le.output bc' []).2 with e | ⟨inp', res⟩
        · rfl
        · simp

lemma add_dense_layer_output_of_given (gp : GpModel) (inp : VarArray) (w : Mat)
    (b : List ℚ) (act : ActFunc) (o : VarArray) :
    (add_dense_layer gp inp w b act (some o)).2.output = o := rfl

lemma add_activation_layer_output_of_given (gp : GpModel) (inp : VarArray) (act : ActFunc)
    (o : VarArray) :
    (add_activation_layer gp inp act (some o)).2.output = o := rfl

/-- Under layers whose parameters are complete, every iteration of the
embedding loop succeeds. -/
lemma runLayers_total (n : ℕ) (co : Option VarArray) :
    ∀ (L : List Layer) (i : ℕ) (gp : GpModel) (inp : VarArray) (bc : Option (List ℚ)),
      (∀ l ∈ L, l.supportedWithBias = true) →
      ∃ gp' inp' res, runLayers n co i L gp inp bc [] = (gp', .ok (inp', res)) := by
  intro L
  induction L with
  | nil => intro i gp inp bc _; exact ⟨gp, inp, [], rfl⟩
  | cons s rest ih =>
    intro i gp inp bc hb
    have hs : s.supportedWithBias = true := hb s (List.mem_cons_self s rest)
    have hrest : ∀ l ∈ rest, l.supportedWithBias = true := fun l hl =>
      hb l (List.mem_cons_of_mem s hl)
    cases s with
    | other k => simp [Layer.supportedWithBias] at hs
    | relu =>
      rcases hq :
          add_activation_layer gp inp ActFunc.relu (if i = n - 1 then co else none) with
        ⟨gp1, le⟩
      rcases ih (i + 1) gp1 le.output bc hrest with ⟨gp', inp', res, hrun⟩
      refine ⟨gp', inp', le :: res, ?_⟩
      simp only [runLayers, stepLayer, hq, List.nil_append]
      rw [runLayers_append n co rest (i + 1) gp1 le.output bc [le], hrun]
      simp
    | linear w b =>
      cases b with
      | none => simp [Layer.supportedWithBias] at hs
      | some bv =>
        rcases hq :
            add_dense_layer gp inp (transposeMat w) bv ActFunc.identity
              (if i = n - 1 then co else none) with
          ⟨gp1, le⟩
        rcases ih (i + 1) gp1 le.output (some bv) hrest with ⟨gp', inp', res, hrun⟩
        refine ⟨gp', inp', le :: res, ?_⟩
        simp only [runLayers, stepLayer, hq, List.nil_append]
        rw [runLayers_append n co rest (i + 1) gp1 le.output (some bv) [le], hrun]
        simp

/-- The per-index facts the embedding loop guarantees about the `k`-th
layer embedding it produced, for the layer list `L` starting at loop
index `i` of a network of `n` layers with caller output `co`. -/
def idxSpec (n : ℕ) (co : Option VarArray) (L : List Layer) (i : ℕ)
    (res : List LayerEmbedding) : Prop :=
  ∀ k le, res.get? k = some le →
    (le.outGiven = if i + k = n - 1 then co else none) ∧
    (∀ o, le.outGiven = some o → le.output = o) ∧
    (∀ w b, L.get? k = some (Layer.linear w (some b)) →
      le.kind = LayerKind.dense (transposeMat w) b ActFunc.identity) ∧
    (L.get? k = some Layer.relu → le.kind = LayerKind.activation ActFunc.relu)

lemma idxSpec_cons {n : ℕ} {co : Option VarArray} {L : List Layer} {s : Layer} {i : ℕ}
    {le0 : LayerEmbedding} {res2 : List LayerEmbedding}
    (hog : le0.outGiven = if i = n - 1 then co else none)
    (hop : ∀ o, le0.outGiven = some o → le0.output = o)
    (hkd : ∀ w b, s = Layer.linear w (some b) →
      le0.kind = LayerKind.dense (transposeMat w) b ActFunc.identity)
    (hkr : s = Layer.relu → le0.kind = LayerKind.activation ActFunc.relu)
    (hidx : idxSpec n co L (i + 1) res2) :
    idxSpec n co (s :: L) i (le0 :: res2) := by
  intro k le hk
  cases k with
  | zero =>
    simp only [List.get?] at hk
    cases hk
    refine ⟨by simpa using hog, hop, ?_, ?_⟩
    · intro w b hw
      simp only [List.get?, Option.some.injEq] at hw
      exact hkd w b hw
    · intro hw
      simp only [List.get?, Option.some.injEq] at hw
      exact hkr hw
  | succ k' =>
    simp only [List.get?] at hk
    have h := hidx k' le hk
    have hshift : i + (k' + 1) = i + 1 + k' := by omega
    refine ⟨?_, h.2.1, ?_, ?_⟩
    · rw [hshift]; exact h.1
    · intro w b hw
      exact h.2.2.1 w b (by simpa using hw)
    · intro hw
      exact h.2.2.2 (by simpa using hw)

/-- What a successful run of the embedding loop guarantees, for networks
without unsupported layer kinds: one embedding per layer, the chaining of
inputs and outputs, and the per-index facts of `idxSpec`. -/
lemma runLayers_ok_spec (n : ℕ) (co : Option VarArray) :
    ∀ (L : List Layer) (i : ℕ) (gp : GpModel) (inp : VarArray) (bc : Option (List ℚ))
      (gp' : GpModel) (inp' : VarArray) (res : List LayerEmbedding),
      (∀ l ∈ L, l.isOther = false) →
      runLayers n co i L gp inp bc [] = (gp', .ok (inp', res)) →
      res.length = L.length ∧ chainFrom inp res inp' ∧ idxSpec n co L i res := by
  intro L
  induction L with
  | nil =>
    intro i gp inp bc gp' inp' res _ hrun
    simp only [runLayers, Prod.mk.injEq, Except.ok.injEq] at hrun
    rcases hrun with ⟨rfl, rfl, rfl⟩
    exact ⟨rfl, rfl, fun k le hk => by cases hk⟩
  | cons s rest ih =>
    intro i gp inp bc gp' inp' res hno hrun
    have hsno : s.isOther = false := hno s (List.mem_cons_self s rest)
    have hrno : ∀ l ∈ rest, l.isOther = false := fun l hl => hno l (List.mem_cons_of_mem s hl)
    cases s with
    | other k => simp [Layer.isOther] at hsno
    | relu =>
      rcases hq :
          add_activation_layer gp inp ActFunc.relu (if i = n - 1 then co else none) with
        ⟨gp1, le0⟩
      simp only [runLayers, stepLayer, hq, List.nil_append] at hrun
      rw [runLayers_append n co rest (i + 1) gp1 le0.output bc [le0]] at hrun
      rcases hr0 : runLayers n co (i + 1) rest gp1 le0.output bc [] with ⟨gp2, r2⟩
      rw [hr0] at hrun
      cases r2 with
      | error e => simp at hrun
      | ok p =>
        rcases p with ⟨inp2, res2⟩
        simp only [Prod.mk.injEq, Except.ok.injEq, List.singleton_append] at hrun
        rcases hrun with ⟨rfl, rfl, rfl⟩
        obtain ⟨hlen, hchain, hidx⟩ := ih (i + 1) gp1 le0.output bc gp2 inp2 res2 hrno hr0
        have hle0 : le0 = (add_activation_layer gp inp ActFunc.relu
            (if i = n - 1 then co else none)).2 := by rw [hq]
        refine ⟨by simp [hlen], ⟨?_, hchain⟩, ?_⟩
        · rw [hle0]; rfl
        · refine idxSpec_cons ?_ ?_ ?_ ?_ hidx
          · rw [hle0]; rfl
          · intro o ho
            have ho' : (if i = n - 1 then co else none) = some o := by
              rw [hle0] at ho; exact ho
            rw [hle0]
            simp only [ho']
            exact add_activation_layer_output_of_given gp inp ActFunc.relu o
          · intro w b hw; cases hw
          · intro _; rw [hle0]; rfl
    | linear w b =>
      have hstep : ∃ bv, (match b with | some x => some x | none => bc) = some bv ∧
          b.getD bv = bv := by
        cases b with
        | some b0 => exact ⟨b0, rfl, rfl⟩
        | none =>
          cases bc with
          | none =>
            exfalso
            simp [runLayers, stepLayer] at hrun
          | some bcv => exact ⟨bcv, rfl, rfl⟩
      rcases hstep with ⟨bv, hbv, hget⟩
      rcases hq :
          add_dense_layer gp inp (transposeMat w) bv ActFunc.identity
            (if i = n - 1 then co else none) with
        ⟨gp1, le0⟩
      simp only [runLayers, stepLayer, hbv, hq, List.nil_append] at hrun
      rw [runLayers_append n co rest (i + 1) gp1 le0.output (some bv) [le0]] at hrun
      rcases hr0 : runLayers n co (i + 1) rest gp1 le0.output (some bv) [] with ⟨gp2, r2⟩
      rw [hr0] at hrun
      cases r2 with
      | error e => simp at hrun
      | ok p =>
        rcases p with ⟨inp2, res2⟩
        simp only [Prod.mk.injEq, Except.ok.injEq, List.singleton_append] at hrun
        rcases hrun with ⟨rfl, rfl, rfl⟩
        obtain ⟨hlen, hchain, hidx⟩ := ih (i + 1) gp1 le0.output (some bv) gp2 inp2 res2 hrno hr0
        have hle0 : le0 = (add_dense_layer gp inp (transposeMat w) bv ActFunc.identity
            (if i = n - 1 then co else none)).2 := by rw [hq]
        refine ⟨by simp [hlen], ⟨?_, hchain⟩, ?_⟩
        · rw [hle0]; rfl
        · refine idxSpec_cons ?_ ?_ ?_ ?_ hidx
          · rw [hle0]; rfl
          · intro o ho
            have ho' : (if i = n - 1 then co else none) = some o := by
              rw [hle0] at ho; exact ho
            rw [hle0]
            simp only [ho']
            exact add_dense_layer_output_of_given gp inp (transposeMat w) bv ActFunc.identity o
          · intro w' b' hw
            cases hw
            have : bv = b' := by
              cases hbv
              rfl
            rw [hle0, this]
            rfl
          · intro hw; cases hw

/-- Unpacking a successful `mipModel` run. -/
lemma mipModel_ok {gp gp' : GpModel} {net : Network} {inp : VarArray} {co : Option VarArray}
    {emb : Embedding} (h : mipModel gp net inp co = (gp', .ok emb)) :
    ∃ inp', runLayers net.length co 0 net gp inp none [] = (gp', .ok (inp', emb.layers)) ∧
      emb.input = inp ∧
      (∀ o, co = some o → emb.output = o) ∧
      (co = none → ∃ le, emb.layers.getLast? = some le ∧ emb.output = le.output) := by
  rcases hr : runLayers net.length co 0 net gp inp none [] with ⟨gp1, r⟩
  cases r with
  | error e => simp [mipModel, hr] at h
  | ok p =>
    rcases p with ⟨inp1, layers⟩
    cases co with
    | some o =>
      simp only [mipModel, hr, Prod.mk.injEq, Except.ok.injEq] at h
      rcases h with ⟨rfl, rfl⟩
      exact ⟨inp1, rfl, rfl, fun o' ho' => by cases ho'; rfl, fun hco => by cases hco⟩
    | none =>
      cases hl : layers.getLast? with
      | none => simp [mipModel, hr, hl] at h
      | some le =>
        simp only [mipModel, hr, hl, Prod.mk.injEq, Except.ok.injEq] at h
        rcases h with ⟨rfl, rfl⟩
        refine ⟨inp1, rfl, rfl, ?_, ?_⟩
        · intro o' ho'
          cases ho'
        · intro _
          exact ⟨le, hl, rfl⟩

/-- Unpacking a successful construction: the validation scan found no
unsupported layer, and the embedding pass produced the result. -/
lemma init_ok {gp gp' : GpModel} {net : Network} {inp : VarArray} {co : Option VarArray}
    {emb : Embedding} (h : SequentialConstr.init gp net inp co = (gp', .ok emb)) :
    validate net = none ∧ mipModel gp net inp co = (gp', .ok emb) := by
  rcases hv : validate net with _ | k
  · simp only [SequentialConstr.init, hv] at h
    exact ⟨rfl, h⟩
  · exfalso
    simp [SequentialConstr.init, hv] at h

/-- Forward evaluation of a supported layer never fails. -/
lemma forwardEval_isOk {net : Network} (h : ∀ l ∈ net, l.isSupported = true) :
    ∀ x : Mat, ∃ y, Network.forwardEval net x = .ok y := by
  induction net with
  | nil => intro x; exact ⟨x, rfl⟩
  | cons l rest ih =>
    intro x
    have hl : l.isSupported = true := h l (List.mem_cons_self l rest)
    have hrest : ∀ l' ∈ rest, l'.isSupported = true := fun l' h' =>
      h l' (List.mem_cons_of_mem l h')
    cases l with
    | other k => simp [Layer.isSupported] at hl
    | relu =>
      rcases ih hrest (reluMat x) with ⟨y, hy⟩
      exact ⟨y, by simp [Network.forwardEval, Layer.forwardEval, hy]⟩
    | linear w b =>
      cases b with
      | some bv =>
        rcases ih hrest (addBiasRows (matMul x (transposeMat w)) bv) with ⟨y, hy⟩
        exact ⟨y, by simp [Network.forwardEval, Layer.forwardEval, hy]⟩
      | none =>
        rcases ih hrest (matMul x (transposeMat w)) with ⟨y, hy⟩
        exact ⟨y, by simp [Network.forwardEval, Layer.forwardEval, hy]⟩

lemma zipWith_sub_self (l : List ℚ) : List.zipWith (· - ·) l l = l.map fun _ => (0 : ℚ) := by
  induction l with
  | nil => rfl
  | cons a l ih => simp [ih]

/-- A matrix minus itself is the all-zero matrix of its shape. -/
lemma matSub_self (m : Mat) : matSub m m = m.map fun row => row.map fun _ => (0 : ℚ) := by
  induction m with
  | nil => rfl
  | cons r m ih => simp [matSub, zipWith_sub_self] at ih ⊢

/-- A concrete solved constraint object used to instantiate the
`get_error` theorems: one ReLU layer, input variable 0, output
variable 1, solution values `[3, 3]`. -/
def wState : SequentialConstrState :=
  ⟨⟨2, 0, some [3, 3]⟩, [Layer.relu], ⟨[[0]]⟩, ⟨[[1]]⟩, []⟩

/-- Claim C4: `get_error()` raises `NoSolution` if and only if the solver
model does not hold a completed feasible solution; when a solution is
available it does not raise (for the networks a constructed object can
hold, i.e. of supported layers). -/
theorem c4_get_error_raises_iff_no_solution (s : SequentialConstrState)
    (hsupp : ∀ l ∈ s.predictor, l.isSupported = true) :
    ((SequentialConstr.get_error s).2 = .error .noSolution ↔ s.gp.solution = none) ∧
    (s.gp.solution ≠ none → ∀ e, (SequentialConstr.get_error s).2 ≠ .error e) := by
  cases hsol : s.gp.solution with
  | none =>
    constructor
    · simp [SequentialConstr.get_error, hsol]
    · intro hne
      exact absurd rfl hne
  | some vals =>
    rcases forwardEval_isOk hsupp (s.input.read vals) with ⟨y, hy⟩
    constructor
    · simp [SequentialConstr.get_error, hsol, hy]
    · intro _ e
      simp [SequentialConstr.get_error, hsol, hy]

theorem c4_get_error_raises_iff_no_solution_witness :
    (∀ l ∈ wState.predictor, l.isSupported = true) ∧
    (((SequentialConstr.get_error wState).2 = .error .noSolution ↔
        wState.gp.solution = none) ∧
      (wState.gp.solution ≠ none → ∀ e, (SequentialConstr.get_error wState).2 ≠ .error e)) :=
  ⟨by decide, c4_get_error_raises_iff_no_solution wState (by decide)⟩

/-- Claim C5: given a solved model, `get_error()` recomputes the
network’s forward pass on the input variables’ solution values and
returns it minus the output variables’ solution values; when the solved
output equals the forward pass exactly, the result is the all-zero array
of the output’s shape. -/
theorem c5_get_error_zero_on_exact_solution (s : SequentialConstrState) (vals : List ℚ)
    (hsol : s.gp.solution = some vals)
    (hfwd : Network.forwardEval s.predictor (s.input.read vals) = .ok (s.output.read vals)) :
    (SequentialConstr.get_error s).2 =
      .ok ((s.output.read vals).map fun row => row.map fun _ => (0 : ℚ)) := by
  simp [SequentialConstr.get_error, hsol, hfwd, matSub_self]

theorem c5_get_error_zero_on_exact_solution_witness :
    wState.gp.solution = some [3, 3] ∧
    Network.forwardEval wState.predictor (wState.input.read [3, 3]) =
      .ok (wState.output.read [3, 3]) ∧
    (SequentialConstr.get_error wState).2 =
      .ok ((wState.output.read [3, 3]).map fun row => row.map fun _ => (0 : ℚ)) :=
  ⟨rfl, by with_unfolding_all decide,
    c5_get_error_zero_on_exact_solution wState [3, 3] rfl (by with_unfolding_all decide)⟩

/-- Claim C7: `get_error()` does not mutate the solver model or the
constraint object: the full object state (solver model with its variable
and constraint counts and solution, predictor, input and output arrays,
layer embeddings) is returned unchanged whatever the outcome. -/
theorem c7_get_error_no_mutation (s : SequentialConstrState) :
    (SequentialConstr.get_error s).1 = s := by
  cases hsol : s.gp.solution with
  | none => simp [SequentialConstr.get_error, hsol]
  | some vals =>
    cases hf : Network.forwardEval s.predictor (s.input.read vals) with
    | error e => simp [SequentialConstr.get_error, hsol, hf]
    | ok t => simp [SequentialConstr.get_error, hsol, hf]

/-- Claim C10: the empty `Sequential` passes the validation scan without
raising `UnsupportedLayerKind`, but with no caller-supplied output array
the embedding pass then fails with the unbound-local error on `layer`
(a `NameError`, not one of the named error conditions), since it
dereferences the last processed layer, which does not exist. -/
theorem c10_empty_network_unbound_layer :
    validate ([] : Network) = none ∧
    ∀ (gp : GpModel) (inp : VarArray),
      SequentialConstr.init gp [] inp none = (gp, .error (.unboundLocal "layer")) :=
  ⟨rfl, fun _ _ => rfl⟩

lemma Layer.isSupported_of_supportedWithBias {l : Layer} (h : l.supportedWithBias = true) :
    l.isSupported = true := by
  cases l with
  | linear w b => rfl
  | relu => rfl
  | other k => simp [Layer.supportedWithBias] at h

lemma Layer.isOther_eq_false_of_supportedWithBias {l : Layer}
    (h : l.supportedWithBias = true) : l.isOther = false := by
  cases l with
  | linear w b => rfl
  | relu => rfl
  | other k => simp [Layer.supportedWithBias] at h

/-- Claim C1: for every network containing a layer that is neither
`nn.Linear` nor `nn.ReLU`, construction raises `NoModel` carrying the
kind name of the first such layer, and the solver model is returned
exactly as it was handed in (no variables or constraints created). -/
theorem c1_unsupported_layer_fails_without_mutation (gp : GpModel) (net : Network)
    (inp : VarArray) (oOpt : Option VarArray) (h : ∃ l ∈ net, l.isSupported = false) :
    ∃ k pre post, net = pre ++ Layer.other k :: post ∧
      (∀ l ∈ pre, l.isSupported = true) ∧
      SequentialConstr.init gp net inp oOpt = (gp, .error (.noModel k)) := by
  rcases validate_isSome_of_unsupported h with ⟨k, hv⟩
  rcases validate_eq_some hv with ⟨pre, post, hnet, hpre⟩
  exact ⟨k, pre, post, hnet, hpre, by simp [SequentialConstr.init, hv]⟩

theorem c1_unsupported_layer_fails_without_mutation_witness :
    (∃ l ∈ [Layer.relu, Layer.other "LayerNorm"], l.isSupported = false) ∧
    ∃ k pre post, [Layer.relu, Layer.other "LayerNorm"] = pre ++ Layer.other k :: post ∧
      (∀ l ∈ pre, l.isSupported = true) ∧
      SequentialConstr.init ⟨0, 0, none⟩ [Layer.relu, Layer.other "LayerNorm"] ⟨[[0]]⟩ none =
        (⟨0, 0, none⟩, .error (.noModel k)) :=
  ⟨by decide, c1_unsupported_layer_fails_without_mutation ⟨0, 0, none⟩
    [Layer.relu, Layer.other "LayerNorm"] ⟨[[0]]⟩ none (by decide)⟩

/-- Claim C2 fails as stated: the empty network consists only of
supported layers (vacuously), yet construction with no caller-supplied
output array does not succeed — it raises the unbound-local error on
`layer`. -/
theorem c2_counterexample_empty_network :
    (∀ l ∈ ([] : Network), l.isSupported = true) ∧
    (SequentialConstr.init ⟨0, 0, none⟩ [] ⟨[[0, 1]]⟩ none).2 =
      .error (.unboundLocal "layer") :=
  ⟨by decide, rfl⟩

/-- Claim C2 (amended): for every network consisting only of affine
layers with their bias parameter present and ReLU layers, where the
network is nonempty or an output array was supplied, construction
succeeds and produces exactly one layer embedding per network layer, the
first embedding’s input is the caller-supplied input array, and each
embedding’s output array is identical to the next embedding’s input
array. -/
theorem c2_amended_supported_network_embeds (gp : GpModel) (net : Network)
    (inp : VarArray) (oOpt : Option VarArray)
    (hsupp : ∀ l ∈ net, l.supportedWithBias = true)
    (hne : net ≠ [] ∨ oOpt ≠ none) :
    ∃ gp' emb, SequentialConstr.init gp net inp oOpt = (gp', .ok emb) ∧
      emb.layers.length = net.length ∧
      (∀ le, emb.layers.head? = some le → le.input = inp) ∧
      List.Chain' (fun a b => a.output = b.input) emb.layers := by
  have hno : ∀ l ∈ net, l.isOther = false := fun l hl =>
    Layer.isOther_eq_false_of_supportedWithBias (hsupp l hl)
  have hval : validate net = none :=
    validate_eq_none_iff.mpr fun l hl => Layer.isSupported_of_supportedWithBias (hsupp l hl)
  rcases runLayers_total net.length oOpt net 0 gp inp none hsupp with ⟨gp', inp', res, hrun⟩
  obtain ⟨hlen, hchain, _⟩ :=
    runLayers_ok_spec net.length oOpt net 0 gp inp none gp' inp' res hno hrun
  cases oOpt with
  | some o =>
    refine ⟨gp', ⟨inp, o, res⟩, ?_, by simpa using hlen, ?_, chainFrom_chain' hchain⟩
    · simp [SequentialConstr.init, hval, mipModel, hrun]
    · intro le hle
      exact chainFrom_head hchain le hle
  | none =>
    have hnet : net ≠ [] := by
      rcases hne with h | h
      · exact h
      · exact absurd rfl h
    have hres : res ≠ [] := by
      intro hres0
      apply hnet
      rw [hres0] at hlen
      exact List.length_eq_zero.mp hlen.symm
    cases hl : res.getLast? with
    | none => exact absurd (List.getLast?_eq_none_iff.mp hl) hres
    | some le =>
      refine ⟨gp', ⟨inp, le.output, res⟩, ?_, by simpa using hlen, ?_,
        chainFrom_chain' hchain⟩
      · simp [SequentialConstr.init, hval, mipModel, hrun, hl]
      · intro le' hle'
        exact chainFrom_head hchain le' hle'

theorem c2_amended_supported_network_embeds_witness :
    (∀ l ∈ [Layer.linear [[1], [2]] (some [5]), Layer.relu], l.supportedWithBias = true) ∧
    ([Layer.linear [[1], [2]] (some [5]), Layer.relu] ≠ [] ∨ (none : Option VarArray) ≠ none) ∧
    ∃ gp' emb,
      SequentialConstr.init ⟨2, 0, none⟩ [Layer.linear [[1], [2]] (some [5]), Layer.relu]
          ⟨[[0, 1]]⟩ none = (gp', .ok emb) ∧
        emb.layers.length = [Layer.linear [[1], [2]] (some [5]), Layer.relu].length ∧
        (∀ le, emb.layers.head? = some le → le.input = ⟨[[0, 1]]⟩) ∧
        List.Chain' (fun a b => a.output = b.input) emb.layers :=
  ⟨by decide, Or.inl (by decide),
    c2_amended_supported_network_embeds ⟨2, 0, none⟩
      [Layer.linear [[1], [2]] (some [5]), Layer.relu] ⟨[[0, 1]]⟩ none (by decide)
      (Or.inl (by decide))⟩

lemma list_getLast?_eq_get? {α : Type} : ∀ l : List α, l.getLast? = l.get? (l.length - 1)
  | [] => rfl
  | [_] => rfl
  | a :: b :: l => by
    rw [List.getLast?_cons_cons, list_getLast?_eq_get? (b :: l)]
    simp [List.length_cons]

lemma isOther_eq_false_of_isSupported {l : Layer} (h : l.isSupported = true) :
    l.isOther = false := by
  cases l with
  | linear w b => rfl
  | relu => rfl
  | other k => simp [Layer.isSupported] at h

/-- Claim C3: during the embedding pass, every layer but the last is
handed `None` as output array (auto-created by the encoder); the last
layer is handed the caller-supplied output argument (which is the
supplied array when one was given); and when none was given, the
object’s canonical output is the last layer’s output array. -/
theorem c3_output_argument_threading (gp gp' : GpModel) (net : Network) (inp : VarArray)
    (oOpt : Option VarArray) (emb : Embedding)
    (h : SequentialConstr.init gp net inp oOpt = (gp', .ok emb)) :
    (∀ k le, emb.layers.get? k = some le → k + 1 < emb.layers.length → le.outGiven = none) ∧
    (∀ le, emb.layers.getLast? = some le → le.outGiven = oOpt) ∧
    (oOpt = none → ∀ le, emb.layers.getLast? = some le → emb.output = le.output) := by
  obtain ⟨hval, hmip⟩ := init_ok h
  obtain ⟨inp', hrun, hin, hosome, honone⟩ := mipModel_ok hmip
  have hno : ∀ l ∈ net, l.isOther = false := fun l hl =>
    isOther_eq_false_of_isSupported (validate_eq_none_iff.mp hval l hl)
  obtain ⟨hlen, hchain, hidx⟩ :=
    runLayers_ok_spec net.length oOpt net 0 gp inp none gp' inp' emb.layers hno hrun
  refine ⟨?_, ?_, ?_⟩
  · intro k le hk hklt
    have h1 := (hidx k le hk).1
    rw [hlen] at hklt
    rw [if_neg (by omega)] at h1
    exact h1
  · intro le hl
    rw [list_getLast?_eq_get? emb.layers] at hl
    have h1 := (hidx (emb.layers.length - 1) le hl).1
    have hne : emb.layers ≠ [] := by
      intro h0
      rw [h0] at hl
      cases hl
    have hpos : 0 < emb.layers.length := List.length_pos.mpr hne
    rw [if_pos (by omega)] at h1
    exact h1
  · intro ho le hl
    rcases honone ho with ⟨le0, hl0, hout⟩
    rw [hl0] at hl
    cases hl
    exact hout

theorem c3_output_argument_threading_witness :
    (⟨LayerKind.dense [[1, 2]] [5] ActFunc.identity, ⟨[[0, 1]]⟩, none,
        ⟨[[2]]⟩⟩ : LayerEmbedding).outGiven = none ∧
    (⟨LayerKind.activation ActFunc.relu, ⟨[[2]]⟩, none,
        ⟨[[3]]⟩⟩ : LayerEmbedding).outGiven = none := by
  have h := c3_output_argument_threading ⟨2, 0, none⟩ ⟨4, 2, none⟩
    [Layer.linear [[1], [2]] (some [5]), Layer.relu] ⟨[[0, 1]]⟩ none
    ⟨⟨[[0, 1]]⟩, ⟨[[3]]⟩,
      [⟨LayerKind.dense [[1, 2]] [5] ActFunc.identity, ⟨[[0, 1]]⟩, none, ⟨[[2]]⟩⟩,
       ⟨LayerKind.activation ActFunc.relu, ⟨[[2]]⟩, none, ⟨[[3]]⟩⟩]⟩ (by rfl)
  exact ⟨h.1 0 _ (by rfl) (by decide), h.2.1 _ (by rfl)⟩

/-- Claim C6: for every `nn.Linear` layer (with its bias parameter
present), the weight matrix the dense-layer encoder receives is the
transpose of the layer’s stored weight parameter and the bias is the
layer’s bias parameter unchanged, so the encoded equality is
`output = input · Wᵀstored + bias`. -/
theorem c6_dense_layer_receives_transposed_weight (gp gp' : GpModel) (net : Network)
    (inp : VarArray) (oOpt : Option VarArray) (emb : Embedding) (k : ℕ) (w : Mat)
    (b : List ℚ) (h : SequentialConstr.init gp net inp oOpt = (gp', .ok emb))
    (hk : net.get? k = some (Layer.linear w (some b))) :
    ∀ le, emb.layers.get? k = some le →
      le.kind = LayerKind.dense (transposeMat w) b ActFunc.identity ∧
      (∀ vals, le.satisfied vals ↔
        le.output.read vals =
          addBiasRows (matMul (le.input.read vals) (transposeMat w)) b) := by
  obtain ⟨hval, hmip⟩ := init_ok h
  obtain ⟨inp', hrun, _, _, _⟩ := mipModel_ok hmip
  have hno : ∀ l ∈ net, l.isOther = false := fun l hl =>
    isOther_eq_false_of_isSupported (validate_eq_none_iff.mp hval l hl)
  obtain ⟨_, _, hidx⟩ :=
    runLayers_ok_spec net.length oOpt net 0 gp inp none gp' inp' emb.layers hno hrun
  intro le hle
  have hkind := (hidx k le hle).2.2.1 w b hk
  exact ⟨hkind, fun vals => by simp [LayerEmbedding.satisfied, hkind]⟩

theorem c6_dense_layer_receives_transposed_weight_witness :
    (⟨LayerKind.dense [[1, 2]] [5] ActFunc.identity, ⟨[[0, 1]]⟩, none,
        ⟨[[2]]⟩⟩ : LayerEmbedding).kind =
      LayerKind.dense (transposeMat [[1], [2]]) [5] ActFunc.identity ∧
    ((⟨LayerKind.dense [[1, 2]] [5] ActFunc.identity, ⟨[[0, 1]]⟩, none,
        ⟨[[2]]⟩⟩ : LayerEmbedding).satisfied [1, 1, 8, 0] ↔
      (⟨[[2]]⟩ : VarArray).read [1, 1, 8, 0] =
        addBiasRows (matMul ((⟨[[0, 1]]⟩ : VarArray).read [1, 1, 8, 0])
          (transposeMat [[1], [2]])) [5]) := by
  have h := c6_dense_layer_receives_transposed_weight ⟨2, 0, none⟩ ⟨4, 2, none⟩
    [Layer.linear [[1], [2]] (some [5]), Layer.relu] ⟨[[0, 1]]⟩ none
    ⟨⟨[[0, 1]]⟩, ⟨[[3]]⟩,
      [⟨LayerKind.dense [[1, 2]] [5] ActFunc.identity, ⟨[[0, 1]]⟩, none, ⟨[[2]]⟩⟩,
       ⟨LayerKind.activation ActFunc.relu, ⟨[[2]]⟩, none, ⟨[[3]]⟩⟩]⟩ 0 [[1], [2]] [5]
    (by rfl) (by rfl) _ (by rfl)
  exact ⟨h.1, h.2 [1, 1, 8, 0]⟩

/-- Claim C8: the validation scan and the embedding pass agree on which
layer kinds are legal — a single layer passes validation exactly when the
embedding loop’s dispatch handles it (produces an embedding or fails
trying, rather than silently skipping it); consequently, every network
that passes validation and embeds successfully gets exactly one layer
embedding per network layer. -/
theorem c8_validation_and_embedding_agree :
    (∀ l : Layer, validate [l] = none ↔
      ∀ (n : ℕ) (co : Option VarArray) (i : ℕ) (gp : GpModel) (inp : VarArray)
        (bc bc' : Option (List ℚ)),
        (stepLayer n co i l gp inp bc).2 ≠ .ok (none, bc')) ∧
    (∀ (gp gp' : GpModel) (net : Network) (inp : VarArray) (oOpt : Option VarArray)
      (emb : Embedding), SequentialConstr.init gp net inp oOpt = (gp', .ok emb) →
      emb.layers.length = net.length) := by
  constructor
  · intro l
    cases l with
    | linear w b =>
      refine ⟨fun _ n co i gp inp bc bc' => ?_, fun _ => rfl⟩
      cases b with
      | some bv => simp [stepLayer]
      | none =>
        cases bc with
        | none => simp [stepLayer]
        | some bcv => simp [stepLayer]
    | relu =>
      refine ⟨fun _ n co i gp inp bc bc' => ?_, fun _ => rfl⟩
      simp [stepLayer]
    | other k =>
      constructor
      · intro hv
        cases hv
      · intro hr
        exact absurd rfl (hr 0 none 0 ⟨0, 0, none⟩ ⟨[]⟩ none none)
  · intro gp gp' net inp oOpt emb h
    obtain ⟨hval, hmip⟩ := init_ok h
    obtain ⟨inp', hrun, _, _, _⟩ := mipModel_ok hmip
    have hno : ∀ l ∈ net, l.isOther = false := fun l hl =>
      isOther_eq_false_of_isSupported (validate_eq_none_iff.mp hval l hl)
    exact (runLayers_ok_spec net.length oOpt net 0 gp inp none gp' inp' emb.layers
      hno hrun).1

theorem c8_validation_and_embedding_agree_witness :
    (validate [Layer.relu] = none ↔
      ∀ (n : ℕ) (co : Option VarArray) (i : ℕ) (gp : GpModel) (inp : VarArray)
        (bc bc' : Option (List ℚ)),
        (stepLayer n co i Layer.relu gp inp bc).2 ≠ .ok (none, bc')) ∧
    (⟨⟨[[0]]⟩, ⟨[[1]]⟩,
      [⟨LayerKind.activation ActFunc.relu, ⟨[[0]]⟩, none, ⟨[[1]]⟩⟩]⟩ :
        Embedding).layers.length = [Layer.relu].length :=
  ⟨c8_validation_and_embedding_agree.1 Layer.relu,
    c8_validation_and_embedding_agree.2 ⟨1, 0, none⟩ ⟨2, 1, none⟩ [Layer.relu] ⟨[[0]]⟩ none
      ⟨⟨[[0]]⟩, ⟨[[1]]⟩, [⟨LayerKind.activation ActFunc.relu, ⟨[[0]]⟩, none, ⟨[[1]]⟩⟩]⟩
      (by rfl)⟩

/-- When no `nn.Linear` layer has yet bound the `layer_bias` local, an
`nn.Linear` layer without a bias parameter makes the loop fail with the
unbound-local error on `layer_bias`. -/
lemma runLayers_missing_bias (w : Mat) (rest : Network) (n : ℕ) (co : Option VarArray) :
    ∀ pre : Network, (∀ l ∈ pre, l.isLinear = false) →
      ∀ (i : ℕ) (gp : GpModel) (inp : VarArray) (acc : List LayerEmbedding),
        ∃ gp', runLayers n co i (pre ++ Layer.linear w none :: rest) gp inp none acc =
          (gp', .error (.unboundLocal "layer_bias")) := by
  intro pre
  induction pre with
  | nil =>
    intro _ i gp inp acc
    exact ⟨gp, by simp [runLayers, stepLayer]⟩
  | cons s pre' ih =>
    intro hlin i gp inp acc
    have hs : s.isLinear = false := hlin s (List.mem_cons_self s pre')
    have hp : ∀ l ∈ pre', l.isLinear = false := fun l hl =>
      hlin l (List.mem_cons_of_mem s hl)
    cases s with
    | linear w' b' => simp [Layer.isLinear] at hs
    | relu =>
      rcases hq :
          add_activation_layer gp inp ActFunc.relu (if i = n - 1 then co else none) with
        ⟨gp1, le⟩
      rcases ih hp (i + 1) gp1 le.output (acc ++ [le]) with ⟨gp', hrun⟩
      refine ⟨gp', ?_⟩
      simp only [List.cons_append, runLayers, stepLayer, hq]
      exact hrun
    | other k =>
      rcases ih hp (i + 1) gp inp acc with ⟨gp', hrun⟩
      refine ⟨gp', ?_⟩
      simp only [List.cons_append, runLayers, stepLayer]
      exact hrun

/-- Claim C9: the embedding pass assumes every `nn.Linear` layer has a
bias parameter.  When the first `nn.Linear` layer of the network has its
bias disabled, the pass fails with the unbound-local error on
`layer_bias`; and when a bias-free `nn.Linear` layer follows one with a
bias, the pass succeeds but hands the earlier layer’s bias vector to the
encoder instead of a zero bias. -/
theorem c9_missing_bias_behaviour :
    (∀ (pre : Network) (w : Mat) (rest : Network) (gp : GpModel) (inp : VarArray)
      (oOpt : Option VarArray), (∀ l ∈ pre, l.isLinear = false) →
      ∃ gp', mipModel gp (pre ++ Layer.linear w none :: rest) inp oOpt =
        (gp', .error (.unboundLocal "layer_bias"))) ∧
    (∀ (w1 : Mat) (b1 : List ℚ) (w2 : Mat) (gp : GpModel) (inp : VarArray)
      (oOpt : Option VarArray),
      ∃ gp' emb,
        mipModel gp [Layer.linear w1 (some b1), Layer.linear w2 none] inp oOpt =
          (gp', .ok emb) ∧
        (emb.layers.get? 1).map LayerEmbedding.kind =
          some (LayerKind.dense (transposeMat w2) b1 ActFunc.identity)) := by
  constructor
  · intro pre w rest gp inp oOpt hlin
    rcases runLayers_missing_bias w rest (pre ++ Layer.linear w none :: rest).length oOpt
      pre hlin 0 gp inp [] with ⟨gp', hrun⟩
    refine ⟨gp', ?_⟩
    simp only [mipModel]
    rw [hrun]
  · intro w1 b1 w2 gp inp oOpt
    cases oOpt with
    | none => exact ⟨_, _, rfl, rfl⟩
    | some o => exact ⟨_, _, rfl, rfl⟩

theorem c9_missing_bias_behaviour_witness :
    (∀ l ∈ [Layer.relu], l.isLinear = false) ∧
    (∃ gp', mipModel ⟨1, 0, none⟩ ([Layer.relu] ++ Layer.linear [[1]] none :: [])
        ⟨[[0]]⟩ none = (gp', .error (.unboundLocal "layer_bias"))) ∧
    ∃ gp' emb,
      mipModel ⟨2, 0, none⟩ [Layer.linear [[1, 2]] (some [5, 6]),
          Layer.linear [[7, 8]] none] ⟨[[0, 1]]⟩ none = (gp', .ok emb) ∧
      (emb.layers.get? 1).map LayerEmbedding.kind =
        some (LayerKind.dense (transposeMat [[7, 8]]) [5, 6] ActFunc.identity) :=
  ⟨by decide,
    c9_missing_bias_behaviour.1 [Layer.relu] [[1]] [] ⟨1, 0, none⟩ ⟨[[0]]⟩ none (by decide),
    c9_missing_bias_behaviour.2 [[1, 2]] [5, 6] [[7, 8]] ⟨2, 0, none⟩ ⟨[[0, 1]]⟩ none⟩

example : transposeMat [[1, 2, 3], [4, 5, 6]] = [[1, 4], [2, 5], [3, 6]] := by decide

example :
    Network.forwardEval [Layer.linear [[1, 2], [3, 4]] (some [10, 20]), Layer.relu]
      [[1, 1]] = .ok [[13, 27]] := by with_unfolding_all decide

example :
    validate [Layer.relu, Layer.other "LayerNorm", Layer.relu] = some "LayerNorm" := by decide
